import Mathlib

/-!
# fake-lambda: configuration wiring and the Lambda adapter

A shallow embedding of `main.go` of `nicholasjackson/fake-lambda`:

* `tidyURIs` (main.go 189-203) together with the two standard-library string
  routines it calls, `strings.Split` and `strings.Trim`;
* the CPU "allocated capacity" adjustment of `init` (main.go 101-107), with its
  `float64` arithmetic;
* the construction of the error injector in `init` (main.go 84-93);
* the loop of `init` that fills the `grpcClients` map (main.go 116-129);
* `LambdaHandler` (main.go 148-183).

Go strings are finite byte sequences, so they are lists of `UInt8` here. A
`float64` is a NaN, an infinity or a signed rational magnitude, and the
operations round to nearest, ties to even.
-/

/-- A Go `string`: an immutable sequence of bytes. -/
abbrev GoString := List UInt8

/-- The bytes of an ASCII literal of the source, such as `","` or `"grpc://"`. -/
def ascii (s : String) : GoString := s.toList.map (fun ch => UInt8.ofNat ch.toNat)

/-- The byte `','` (0x2c), the separator `tidyURIs` splits on. -/
def comma : UInt8 := 44

/-- The byte `' '` (0x20), the cutset `tidyURIs` trims with. -/
def space : UInt8 := 32

namespace strings

/-- Go `strings.IndexByte(s, c)`: the index of the first byte of `s` equal to
`c`; `none` stands for Go's `-1`. -/
def IndexByte : GoString → UInt8 → Option Nat
  | [], _ => none
  | b :: rest, c => if b = c then some 0 else (IndexByte rest c).map (· + 1)

/-- Go `strings.Count(s, sep)` for a one-byte separator: the number of bytes of
`s` equal to `c`. -/
def Count : GoString → UInt8 → Nat
  | [], _ => 0
  | b :: rest, c => if b = c then Count rest c + 1 else Count rest c

/-- The `for i < n` loop of Go `strings.genSplit` for a one-byte separator and
`sepSave = 0`:
```
for i < n {
  m := Index(s, sep)
  if m < 0 { break }
  a[i] = s[:m]
  s = s[m+len(sep):]
  i++
}
a[i] = s
return a[:i+1]
```
The first argument is the number of iterations still allowed, `n - i`. -/
def genSplitLoop (sep : UInt8) : Nat → GoString → List GoString
  | 0, s => [s]
  | k + 1, s =>
    match IndexByte s sep with
    | none => [s]
    | some m => s.take m :: genSplitLoop sep k (s.drop (m + 1))

/-- Go `strings.Split(s, sep)` (that is `genSplit(s, sep, 0, -1)`) for a
one-byte separator: `n = Count(s, sep) + 1`, capped at `len(s) + 1`, then the
loop runs while `i < n - 1`. -/
def Split (s : GoString) (sep : UInt8) : List GoString :=
  let n := Count s sep + 1
  let n := if n > s.length + 1 then s.length + 1 else n
  genSplitLoop sep (n - 1) s

/-- Go `strings.trimLeftByte`:
`for len(s) > 0 && s[0] == c { s = s[1:] }; return s`. -/
def trimLeftByte : GoString → UInt8 → GoString
  | [], _ => []
  | b :: rest, c => if b = c then trimLeftByte rest c else b :: rest

/-- The loop of Go `strings.trimRightByte`,
`for len(s) > 0 && s[len(s)-1] == c { s = s[:len(s)-1] }`, with the number of
iterations still allowed as first argument. -/
def trimRightByteLoop (c : UInt8) : Nat → GoString → GoString
  | 0, s => s
  | k + 1, s => if s.getLast? = some c then trimRightByteLoop c k s.dropLast else s

/-- Go `strings.trimRightByte(s, c)`. Every iteration removes one byte, so
`len(s)` iterations are always enough (see `trimRightByte_eq_rdropWhile`). -/
def trimRightByte (s : GoString) (c : UInt8) : GoString :=
  trimRightByteLoop c s.length s

/-- Go `strings.Trim(s, cutset)` for a cutset made of the single ASCII byte `c`:
```
if s == "" || cutset == "" { return s }
if len(cutset) == 1 && cutset[0] < utf8.RuneSelf {
  return trimLeftByte(trimRightByte(s, cutset[0]), cutset[0])
}
```
-/
def Trim (s : GoString) (c : UInt8) : GoString :=
  if s = [] then s else trimLeftByte (trimRightByte s c) c

/-- Go `strings.HasPrefix(s, p)`: `len(s) >= len(p) && s[:len(p)] == p`. -/
def HasPrefix (s p : GoString) : Bool :=
  decide (s.length ≥ p.length) && (s.take p.length == p)

/-- Go `strings.TrimPrefix(s, p)`:
`if HasPrefix(s, p) { return s[len(p):] }; return s`. -/
def TrimPrefix (s p : GoString) : GoString :=
  if HasPrefix s p then s.drop p.length else s

end strings

/-- The function `tidyURIs` of main.go (lines 191-203):
```
resp := []string{}
rawResp := strings.Split(uris, ",")
for _, r := range rawResp {
  r = strings.Trim(r, " ")
  if r != "" { resp = append(resp, r) }
}
return resp
```
The `for` loop is the left fold over `rawResp`, with `resp` as accumulator. -/
def tidyURIs (uris : GoString) : List GoString :=
  let rawResp := strings.Split uris comma
  rawResp.foldl
    (fun resp r =>
      let r := strings.Trim r space
      if r ≠ [] then resp ++ [r] else resp)
    []

/-- Trimming as the specification words it: the leading space bytes are removed,
then the trailing ones. -/
def trimSpaces (seg : GoString) : GoString :=
  (seg.dropWhile (· == space)).rdropWhile (· == space)

/-- The list the specification describes for `tidyURIs`: split on `','`, trim
the spaces of every segment, drop the segments that are then empty, keep the
order. -/
def tidyURIsSpec (s : GoString) : List GoString :=
  ((s.splitOn comma).map trimSpaces).filter (fun seg => seg ≠ [])

/-! ## float64 arithmetic

The CPU adjustment of `init` is computed in Go's `float64`, IEEE 754 binary64
with round to nearest, ties to even. A value is a NaN, an infinity, or a sign
with a rational magnitude; the operations round the exact result. -/

/-- A Go `float64` value: NaN, a signed infinity, or the finite value `±mag`
(`mag = 0` gives the two zeros). -/
inductive Float64 where
  /-- A NaN. -/
  | nan
  /-- The infinity of sign `neg`. -/
  | inf (neg : Bool)
  /-- The finite value of sign `neg` and magnitude `mag`. -/
  | finite (neg : Bool) (mag : ℚ)
  deriving DecidableEq

namespace Float64

/-- Rounding of a rational to the nearest integer, ties to the even one. -/
def roundHalfEven (y : ℚ) : ℤ :=
  let f := ⌊y⌋
  if y - f < 1 / 2 then f
  else if 1 / 2 < y - f then f + 1
  else if f % 2 = 0 then f else f + 1

/-- The exponent of the unit in the last place of binary64 at magnitude `x`:
53 significant bits below the leading one, and no exponent below that of the
subnormal numbers. -/
def ulpExponent (x : ℚ) : ℤ := max (Int.log 2 x) (-1022) - 52

/-- The magnitude `x ≥ 0` rounded to a multiple of its unit in the last place,
before the overflow test. -/
def roundMagnitude (x : ℚ) : ℚ :=
  (roundHalfEven (x / 2 ^ ulpExponent x) : ℚ) * 2 ^ ulpExponent x

/-- The binary64 value of sign `neg` nearest to the exact magnitude `x ≥ 0`; a
rounded magnitude of `2^1024` or more overflows to the infinity. -/
def round (neg : Bool) (x : ℚ) : Float64 :=
  let r := roundMagnitude x
  if (2 : ℚ) ^ (1024 : ℕ) ≤ r then inf neg else finite neg r

/-- The conversion `float64(n)` of an `int`. -/
def ofInt (n : Int) : Float64 := round (decide (n < 0)) |(n : ℚ)|

/-- The product `x * y` of two `float64`. -/
def mul : Float64 → Float64 → Float64
  | nan, _ => nan
  | _, nan => nan
  | inf a, inf b => inf (xor a b)
  | inf a, finite b q => if q = 0 then nan else inf (xor a b)
  | finite a p, inf b => if p = 0 then nan else inf (xor a b)
  | finite a p, finite b q => round (xor a b) (p * q)

/-- The quotient `x / y` of two `float64`. -/
def div : Float64 → Float64 → Float64
  | nan, _ => nan
  | _, nan => nan
  | inf _, inf _ => nan
  | inf a, finite b _ => inf (xor a b)
  | finite a _, inf b => finite (xor a b) 0
  | finite a p, finite b q =>
    if q = 0 then (if p = 0 then nan else inf (xor a b)) else round (xor a b) (p / q)

/-- The rational `±mag`. -/
def signed (neg : Bool) (mag : ℚ) : ℚ := if neg then -mag else mag

/-- The rational value of a finite `float64`, `none` for NaN and the infinities. -/
def toRat : Float64 → Option ℚ
  | finite neg mag => some (signed neg mag)
  | _ => none

end Float64

/-! ## CPU load configuration (main.go 56-59, 95-110) -/

/-- The CPU load settings read from the environment. -/
structure LoadConfig where
  /-- Setting `LOAD_CPU_ALLOCATED`, MHz of CPU allocated to the service (default 0). -/
  loadCPUAllocated : Int
  /-- Setting `LOAD_CPU_CLOCK_SPEED`, MHz of a single logical core (default 1000). -/
  loadCPUClockSpeed : Int
  /-- Setting `LOAD_CPU_CORES`, number of cores to load (default -1: all cores). -/
  loadCPUCores : Int
  /-- Setting `LOAD_CPU_PERCENTAGE`, configured percentage (default 0). -/
  loadCPUPercentage : Float64
  deriving DecidableEq

/-- Lines 101-103 of `init`:
`if *loadCPUCores == -1 { *loadCPUCores = runtime.NumCPU() }`.
`numCPU` is the value of `runtime.NumCPU()`. -/
def resolveCores (cfg : LoadConfig) (numCPU : Int) : LoadConfig :=
  if cfg.loadCPUCores = -1 then { cfg with loadCPUCores := numCPU } else cfg

/-- Lines 105-107 of `init`:
```
if *loadCPUAllocated != 0 {
  *loadCPUPercentage = float64(*loadCPUAllocated) /
    (float64(*loadCPUClockSpeed) * float64(*loadCPUCores)) * float64(*loadCPUPercentage)
}
```
The expression is `(A / (C * K)) * P`, every operation in `float64`. -/
def adjustPercentage (cfg : LoadConfig) : LoadConfig :=
  if cfg.loadCPUAllocated ≠ 0 then
    { cfg with
      loadCPUPercentage :=
        Float64.mul
          (Float64.div (Float64.ofInt cfg.loadCPUAllocated)
            (Float64.mul (Float64.ofInt cfg.loadCPUClockSpeed)
              (Float64.ofInt cfg.loadCPUCores)))
          cfg.loadCPUPercentage }
  else cfg

/-- The CPU part of `init` (lines 101-110): the core count is resolved, the
percentage adjusted, and the two are the first arguments of
`load.NewGenerator(*loadCPUCores, *loadCPUPercentage, ...)`. -/
def generatorCPUArgs (cfg : LoadConfig) (numCPU : Int) : Int × Float64 :=
  let cfg := adjustPercentage (resolveCores cfg numCPU)
  (cfg.loadCPUCores, cfg.loadCPUPercentage)

/-- The worked example of the comment at lines 97-99: percentage 10, allocated
100 MHz, clock 1000 MHz, 10 cores. -/
def commentExample : LoadConfig :=
  { loadCPUAllocated := 100, loadCPUClockSpeed := 1000, loadCPUCores := 10,
    loadCPUPercentage := Float64.finite false 10 }

/-! ## The error injector (main.go 50-53, 84-93) -/

/-- The arguments `init` passes to `errors.NewInjector` after the logger. -/
structure Injector where
  /-- Setting `ERROR_RATE`. -/
  errorRate : ℚ
  /-- Setting `ERROR_CODE`. -/
  errorCode : Int
  /-- Setting `ERROR_TYPE`. -/
  errorType : GoString
  /-- Setting `ERROR_DELAY`, in nanoseconds. -/
  errorDelay : Int
  /-- The rate of the secondary (chained) fault. -/
  secondaryRate : ℚ
  /-- The status code of the secondary fault. -/
  secondaryCode : Int
  deriving DecidableEq

/-- The constant `http.StatusServiceUnavailable`. -/
def StatusServiceUnavailable : Int := 503

/-- The constant `http.StatusOK`. -/
def StatusOK : Int := 200

/-- Lines 85-93 of `init`:
```
errorInjector := errors.NewInjector(logger.Log().Named("error_injector"),
  *errorRate, *errorCode, *errorType, *errorDelay, 0.0, http.StatusServiceUnavailable)
```
-/
def initErrorInjector (errorRate : ℚ) (errorCode : Int) (errorType : GoString)
    (errorDelay : Int) : Injector :=
  { errorRate := errorRate, errorCode := errorCode, errorType := errorType,
    errorDelay := errorDelay, secondaryRate := 0, secondaryCode := StatusServiceUnavailable }

/-- What a fault check decides. -/
inductive FaultDecision where
  /-- The primary fault fires. -/
  | primary
  /-- The secondary (chained) fault fires. -/
  | secondary
  /-- No fault. -/
  | pass
  deriving DecidableEq

/-- Modelled from the spec: the decision rule of the injector (package
`fake-service/errors`, not part of this repository's sources). A fault fires iff
its uniform sample is below its rate, and the secondary fault is evaluated only
if the primary check does not fire. `sample` is the draw of the primary check
and `sample2` the draw of the secondary one. -/
def Injector.check (inj : Injector) (sample sample2 : ℚ) : FaultDecision :=
  if sample < inj.errorRate then FaultDecision.primary
  else if sample2 < inj.secondaryRate then FaultDecision.secondary
  else FaultDecision.pass

/-! ## The map of gRPC clients (main.go 116-129) -/

/-- A Go `map[string]V`, by what a lookup returns. -/
abbrev GoMap (V : Type) := GoString → Option V

/-- The empty map `make(map[string]V)`. -/
def GoMap.empty {V : Type} : GoMap V := fun _ => none

/-- The assignment `m[k] = v`. -/
def GoMap.set {V : Type} (m : GoMap V) (k : GoString) (v : V) : GoMap V :=
  fun key => if key = k then some v else m key

/-- The loop of lines 118-129 over the URIs still to visit:
```
for _, u := range tidyURIs(*upstreamURIs) {
  u2 := strings.TrimPrefix(u, "grpc://")
  c, err := client.NewGRPC(u2, *upstreamRequestTimeout)
  if err != nil { logger.Log().Error(...); os.Exit(1) }
  grpcClients[u] = c
}
```
`NewGRPC` is the constructor of package `fake-service/client`; `Except.error 1`
is the process exit `os.Exit(1)`. -/
def registerGRPCClients {Client Err : Type} (NewGRPC : GoString → Int → Except Err Client)
    (upstreamRequestTimeout : Int) : List GoString → GoMap Client → Except Int (GoMap Client)
  | [], grpcClients => Except.ok grpcClients
  | u :: rest, grpcClients =>
    let u2 := strings.TrimPrefix u (ascii "grpc://")
    match NewGRPC u2 upstreamRequestTimeout with
    | Except.error _ => Except.error 1
    | Except.ok c => registerGRPCClients NewGRPC upstreamRequestTimeout rest (grpcClients.set u c)

/-- Lines 116-129 of `init`: `grpcClients := make(map[string]client.GRPC)`
followed by the loop over `tidyURIs(*upstreamURIs)`. -/
def initGRPCClients {Client Err : Type} (NewGRPC : GoString → Int → Except Err Client)
    (upstreamRequestTimeout : Int) (upstreamURIs : GoString) : Except Int (GoMap Client) :=
  registerGRPCClients NewGRPC upstreamRequestTimeout (tidyURIs upstreamURIs) GoMap.empty

/-! ## The Lambda adapter (main.go 148-183) -/

/-- A Go `error` value, by its message; `nil` is `none` of `Option GoError`. -/
abbrev GoError := String

/-- What `httptest.ResponseRecorder` holds after the handler ran. -/
structure ResponseRecorder where
  /-- The recorded status code, `rr.Code`. -/
  Code : Int
  /-- The recorded body, `rr.Body.Bytes()`. -/
  Body : GoString
  deriving DecidableEq

/-- The collaborators of `LambdaHandler`, none of which is defined in main.go. -/
structure Collaborators (Request Response HTTPRequest : Type) where
  /-- The call `json.Marshal(req)`. -/
  jsonMarshal : Request → Except GoError GoString
  /-- The call `http.NewRequest(http.MethodGet, "http://localhost", bytes.NewBuffer(d))`. -/
  newRequest : GoString → Except GoError HTTPRequest
  /-- The call `fakeRequest.ServeHTTP(rr, r)` on a fresh recorder `rr`, by what `rr`
  holds afterwards. -/
  serveHTTP : HTTPRequest → ResponseRecorder
  /-- The call `json.Unmarshal(rr.Body.Bytes(), resp)` into a fresh `resp`. -/
  jsonUnmarshal : GoString → Except GoError Response
  /-- The zero value `response.Response{}`. -/
  zeroResponse : Response

/-- The error `fmt.Errorf("expected status 200, got status %d", code)`. -/
def statusError (code : Int) : GoError :=
  "expected status 200, got status " ++ toString code

/-- The function `LambdaHandler` of main.go (lines 148-183). -/
def LambdaHandler {Request Response HTTPRequest : Type}
    (env : Collaborators Request Response HTTPRequest) (req : Request) :
    Response × Option GoError :=
  match env.jsonMarshal req with
  | Except.error err => (env.zeroResponse, some err)
  | Except.ok d =>
    match env.newRequest d with
    | Except.error err => (env.zeroResponse, some err)
    | Except.ok r =>
      let rr := env.serveHTTP r
      match env.jsonUnmarshal rr.Body with
      | Except.error err => (env.zeroResponse, some err)
      | Except.ok resp =>
        let respError : Option GoError :=
          if rr.Code ≠ StatusOK then some (statusError rr.Code) else none
        (resp, respError)

/-! ## Concrete inputs used below -/

/-- A load configuration with an allocation: 500 MHz allocated, 1000 MHz per
core, all cores (`-1`), 50 percent. -/
def allocatedConfig : LoadConfig :=
  { loadCPUAllocated := 500, loadCPUClockSpeed := 1000, loadCPUCores := -1,
    loadCPUPercentage := Float64.finite false 50 }

/-- A load configuration whose adjustment is not exact in `float64`: 1 MHz
allocated, 10 MHz per core, 1 core, 3 percent. -/
def inexactConfig : LoadConfig :=
  { loadCPUAllocated := 1, loadCPUClockSpeed := 10, loadCPUCores := 1,
    loadCPUPercentage := Float64.finite false 3 }

/-- A `client.NewGRPC` that never fails; the client it returns is identified by
the target it was dialled with. -/
def dialTarget : GoString → Int → Except GoError GoString :=
  fun target _ => Except.ok target

/-- A `client.NewGRPC` that fails on the empty target and otherwise returns a
client identified by its target. -/
def dialNonEmpty : GoString → Int → Except GoError GoString :=
  fun target _ => if target = [] then Except.error "empty target" else Except.ok target

/-- Collaborators for which the handler answers status `code` with body `body`,
and every body decodes to itself. -/
def echoCollaborators (code : Int) (body : GoString) : Collaborators Unit GoString GoString :=
  { jsonMarshal := fun _ => Except.ok (ascii "null")
    newRequest := fun d => Except.ok d
    serveHTTP := fun _ => { Code := code, Body := body }
    jsonUnmarshal := fun b => Except.ok b
    zeroResponse := [] }

/-! ## The string routines against their list-level meaning -/

namespace strings

theorem IndexByte_eq_none {s : GoString} {c : UInt8} (h : IndexByte s c = none) : c ∉ s := by
  induction s with
  | nil => simp
  | cons b rest ih =>
    simp only [IndexByte] at h
    split at h
    · simp at h
    · rename_i hb
      simp only [Option.map_eq_none'] at h
      simp only [List.mem_cons, not_or]
      exact ⟨fun hc => hb hc.symm, ih h⟩

theorem IndexByte_eq_some {s : GoString} {c : UInt8} {m : Nat} (h : IndexByte s c = some m) :
    s = s.take m ++ c :: s.drop (m + 1) ∧ c ∉ s.take m ∧
      Count s c = Count (s.drop (m + 1)) c + 1 := by
  induction s generalizing m with
  | nil => simp [IndexByte] at h
  | cons b rest ih =>
    simp only [IndexByte] at h
    split at h
    · rename_i hb
      simp only [Option.some.injEq] at h
      subst h
      subst hb
      simp [Count]
    · rename_i hb
      simp only [Option.map_eq_some'] at h
      obtain ⟨m0, hm0, rfl⟩ := h
      obtain ⟨h1, h2, h3⟩ := ih hm0
      refine ⟨?_, ?_, ?_⟩
      · simp only [List.take_succ_cons, List.drop_succ_cons, List.cons_append, List.cons.injEq,
          true_and]
        exact h1
      · simp only [List.take_succ_cons, List.mem_cons, not_or]
        exact ⟨fun hc => hb hc.symm, h2⟩
      · simp only [Count, hb, if_false, List.drop_succ_cons]
        exact h3

theorem Count_le_length (s : GoString) (c : UInt8) : Count s c ≤ s.length := by
  induction s with
  | nil => simp [Count]
  | cons b rest ih =>
    simp only [Count, List.length_cons]
    split <;> omega

theorem Count_eq_zero_of_not_mem {s : GoString} {c : UInt8} (h : c ∉ s) : Count s c = 0 := by
  induction s with
  | nil => rfl
  | cons b rest ih =>
    simp only [List.mem_cons, not_or] at h
    simp only [Count]
    rw [if_neg (fun hb => h.1 hb.symm)]
    exact ih h.2

theorem genSplitLoop_eq_splitOn (sep : UInt8) (k : Nat) (s : GoString)
    (hk : Count s sep ≤ k) : genSplitLoop sep k s = s.splitOn sep := by
  induction k generalizing s with
  | zero =>
    have h0 : Count s sep = 0 := by omega
    have hmem : sep ∉ s := by
      intro hin
      cases hi : IndexByte s sep with
      | none => exact IndexByte_eq_none hi hin
      | some m => have := (IndexByte_eq_some hi).2.2; omega
    simp only [genSplitLoop, List.splitOn]
    rw [List.splitOnP_eq_single]
    intro x hx hxs
    simp only [beq_iff_eq] at hxs
    exact hmem (hxs ▸ hx)
  | succ k ih =>
    simp only [genSplitLoop]
    cases hi : IndexByte s sep with
    | none =>
      have hmem := IndexByte_eq_none hi
      simp only [List.splitOn]
      rw [List.splitOnP_eq_single]
      intro x hx hxs
      simp only [beq_iff_eq] at hxs
      exact hmem (hxs ▸ hx)
    | some m =>
      obtain ⟨h1, h2, h3⟩ := IndexByte_eq_some hi
      simp only
      rw [ih _ (by omega)]
      conv_rhs => rw [h1]
      simp only [List.splitOn]
      rw [List.splitOnP_first]
      · intro x hx hxs
        simp only [beq_iff_eq] at hxs
        exact h2 (hxs ▸ hx)
      · simp

theorem Split_eq_splitOn (s : GoString) (sep : UInt8) : Split s sep = s.splitOn sep := by
  have hc := Count_le_length s sep
  simp only [Split]
  apply genSplitLoop_eq_splitOn
  split <;> omega

theorem trimLeftByte_eq_dropWhile (s : GoString) (c : UInt8) :
    trimLeftByte s c = s.dropWhile (· == c) := by
  induction s with
  | nil => rfl
  | cons b rest ih =>
    simp only [trimLeftByte, List.dropWhile_cons, beq_iff_eq]
    split
    · exact ih
    · rfl

theorem trimRightByteLoop_eq_rdropWhile (c : UInt8) (k : Nat) (s : GoString)
    (hk : s.length ≤ k) : trimRightByteLoop c k s = s.rdropWhile (· == c) := by
  induction k generalizing s with
  | zero =>
    have : s = [] := List.length_eq_zero.mp (by omega)
    subst this
    simp [trimRightByteLoop]
  | succ k ih =>
    rcases List.eq_nil_or_concat s with rfl | ⟨t, x, rfl⟩
    · simp [trimRightByteLoop]
    · simp only [List.concat_eq_append] at hk ⊢
      simp only [trimRightByteLoop, List.getLast?_concat, Option.some.injEq,
        List.dropLast_concat]
      rw [List.rdropWhile_concat]
      simp only [beq_iff_eq]
      split
      · apply ih
        simp only [List.length_append, List.length_singleton] at hk
        omega
      · rfl

theorem trimRightByte_eq_rdropWhile (s : GoString) (c : UInt8) :
    trimRightByte s c = s.rdropWhile (· == c) :=
  trimRightByteLoop_eq_rdropWhile c s.length s le_rfl

theorem Trim_eq (s : GoString) (c : UInt8) :
    Trim s c = (s.rdropWhile (· == c)).dropWhile (· == c) := by
  simp only [Trim]
  split
  · rename_i h
    subst h
    simp
  · rw [trimRightByte_eq_rdropWhile, trimLeftByte_eq_dropWhile]

end strings

/-! ## List-level facts used for `tidyURIs` -/

theorem dropWhile_concat_eq {α : Type} [DecidableEq α] (p : α → Bool) (t : List α) (x : α) :
    (t ++ [x]).dropWhile p =
      if t.dropWhile p = [] then (if p x = true then [] else [x])
      else t.dropWhile p ++ [x] := by
  induction t with
  | nil => simp [List.dropWhile_cons]
  | cons a t ih =>
    by_cases ha : p a = true
    · simp only [List.cons_append, List.dropWhile_cons, ha, if_true]
      exact ih
    · simp [List.dropWhile_cons, ha]

/-- Trimming on the left and on the right commute. -/
theorem dropWhile_rdropWhile_comm {α : Type} [DecidableEq α] (p : α → Bool) (l : List α) :
    (l.rdropWhile p).dropWhile p = (l.dropWhile p).rdropWhile p := by
  induction l using List.reverseRecOn with
  | nil => simp
  | append_singleton t x ih =>
    by_cases hx : p x = true
    · rw [List.rdropWhile_concat_pos _ _ _ hx, ih, dropWhile_concat_eq]
      by_cases ht : t.dropWhile p = []
      · simp [ht, hx]
      · simp only [ht, if_false]
        rw [List.rdropWhile_concat_pos _ _ _ hx]
    · rw [List.rdropWhile_concat_neg _ _ _ hx, dropWhile_concat_eq]
      by_cases ht : t.dropWhile p = []
      · simp only [ht, if_true, hx, if_false]
        simp [hx, List.rdropWhile_singleton]
      · simp only [ht, if_false]
        rw [List.rdropWhile_concat_neg _ _ _ hx]

theorem foldl_append_filter {α β : Type} [DecidableEq β] (f : α → List β) (l : List α) (init : List (List β)) :
    l.foldl (fun resp r => if f r ≠ [] then resp ++ [f r] else resp) init =
      init ++ (l.map f).filter (fun seg => seg ≠ []) := by
  induction l generalizing init with
  | nil => simp
  | cons a l ih =>
    simp only [List.foldl_cons, List.map_cons]
    rw [ih]
    by_cases ha : f a = []
    · simp [ha]
    · simp [ha, List.filter_cons]

theorem not_mem_of_mem_splitOnP {α : Type} (p : α → Bool) (l : List α) :
    ∀ seg ∈ l.splitOnP p, ∀ y ∈ seg, p y = false := by
  induction l with
  | nil => simp
  | cons a l ih =>
    rw [List.splitOnP_cons]
    by_cases ha : p a = true
    · simp only [ha, if_true, List.mem_cons]
      rintro seg (rfl | hseg) y hy
      · simp at hy
      · exact ih seg hseg y hy
    · simp only [ha]
      cases hsp : l.splitOnP p with
      | nil => simp
      | cons hd tl =>
        rw [hsp] at ih
        simp only [Bool.false_eq_true, if_false, List.modifyHead_cons, List.mem_cons]
        rintro seg (rfl | hseg) y hy
        · rcases List.mem_cons.mp hy with rfl | hy
          · simpa using ha
          · exact ih hd (List.mem_cons_self _ _) y hy
        · exact ih seg (List.mem_cons_of_mem _ hseg) y hy

theorem trimSpaces_subset (seg : GoString) : trimSpaces seg ⊆ seg :=
  fun _ hx => (List.dropWhile_suffix _).subset ((List.rdropWhile_prefix _ _).subset hx)

theorem trimSpaces_head (seg : GoString) : (trimSpaces seg).head? ≠ some space := by
  intro h
  unfold trimSpaces at h
  have hpre := List.rdropWhile_prefix (· == space) (seg.dropWhile (· == space))
  obtain ⟨t, ht⟩ := hpre
  cases hu : (seg.dropWhile (· == space)).rdropWhile (· == space) with
  | nil => rw [hu] at h; simp at h
  | cons a u =>
    rw [hu] at h ht
    simp only [List.head?_cons, Option.some.injEq] at h
    subst h
    have hne : seg.dropWhile (· == space) ≠ [] := by rw [← ht]; simp
    have := List.head_dropWhile_not (· == space) seg hne
    simp only [← ht, List.cons_append, List.head_cons] at this
    simp at this

theorem trimSpaces_getLast (seg : GoString) : (trimSpaces seg).getLast? ≠ some space := by
  intro h
  unfold trimSpaces at h
  have hne : (seg.dropWhile (· == space)).rdropWhile (· == space) ≠ [] := by
    intro h0; rw [h0] at h; simp at h
  have := List.rdropWhile_last_not (· == space) (seg.dropWhile (· == space)) hne
  rw [List.getLast?_eq_getLast _ hne] at h
  simp only [Option.some.injEq] at h
  rw [h] at this
  simp at this

theorem Trim_space_eq_trimSpaces (r : GoString) : strings.Trim r space = trimSpaces r := by
  rw [strings.Trim_eq, dropWhile_rdropWhile_comm]
  rfl

/-- Every element of `tidyURIs s` is the trimmed form of a segment of the split,
and is not empty. -/
theorem mem_tidyURIs {s u : GoString} (h : u ∈ tidyURIs s) :
    ∃ seg ∈ s.splitOn comma, u = trimSpaces seg ∧ u ≠ [] := by
  unfold tidyURIs at h
  simp only [strings.Split_eq_splitOn, Trim_space_eq_trimSpaces] at h
  rw [foldl_append_filter trimSpaces] at h
  simp only [List.nil_append, List.mem_filter, List.mem_map, decide_eq_true_eq] at h
  obtain ⟨⟨seg, hseg, rfl⟩, hne⟩ := h
  exact ⟨seg, hseg, rfl, hne⟩

/-! ## The registration loop -/

namespace strings

theorem HasPrefix_iff (s p : GoString) : HasPrefix s p = true ↔ p <+: s := by
  unfold HasPrefix
  rw [List.prefix_iff_eq_take]
  simp only [ge_iff_le, Bool.and_eq_true, decide_eq_true_eq, beq_iff_eq]
  constructor
  · rintro ⟨_, h⟩
    exact h.symm
  · intro h
    refine ⟨?_, h.symm⟩
    have := congrArg List.length h
    rw [List.length_take] at this
    omega

/-- A string that starts with `p` loses exactly `p`. -/
theorem TrimPrefix_append (p rest : GoString) : TrimPrefix (p ++ rest) p = rest := by
  unfold TrimPrefix
  rw [if_pos ((HasPrefix_iff _ _).mpr (List.prefix_append p rest))]
  simp

/-- A string that does not start with `p` is left as it is. -/
theorem TrimPrefix_of_not_prefix {s p : GoString} (h : ¬ p <+: s) : TrimPrefix s p = s := by
  unfold TrimPrefix
  rw [if_neg (fun hp => h ((HasPrefix_iff _ _).mp hp))]

end strings

theorem registerGRPCClients_ok {Client Err : Type} (NewGRPC : GoString → Int → Except Err Client)
    (timeout : Int) (l : List GoString) (m0 : GoMap Client)
    (h : ∀ u ∈ l, ∃ c, NewGRPC (strings.TrimPrefix u (ascii "grpc://")) timeout = Except.ok c) :
    ∃ m, registerGRPCClients NewGRPC timeout l m0 = Except.ok m ∧
      ∀ u, (u ∈ l → ∃ c, m u = some c ∧
              NewGRPC (strings.TrimPrefix u (ascii "grpc://")) timeout = Except.ok c) ∧
           (u ∉ l → m u = m0 u) := by
  induction l generalizing m0 with
  | nil => exact ⟨m0, rfl, fun u => ⟨fun hu => absurd hu (List.not_mem_nil u), fun _ => rfl⟩⟩
  | cons x rest ih =>
    obtain ⟨c, hc⟩ := h x (List.mem_cons_self _ _)
    obtain ⟨m, hm, hprop⟩ := ih (m0.set x c) (fun u hu => h u (List.mem_cons_of_mem _ hu))
    refine ⟨m, ?_, ?_⟩
    · simp only [registerGRPCClients, hc]
      exact hm
    · intro u
      constructor
      · intro hu
        by_cases hrest : u ∈ rest
        · exact (hprop u).1 hrest
        · have hux : u = x := by
            rcases List.mem_cons.mp hu with h1 | h1
            · exact h1
            · exact absurd h1 hrest
          refine ⟨c, ?_, hux ▸ hc⟩
          rw [(hprop u).2 hrest]
          simp [GoMap.set, hux]
      · intro hu
        simp only [List.mem_cons, not_or] at hu
        rw [(hprop u).2 hu.2]
        simp [GoMap.set, hu.1]

theorem registerGRPCClients_exit {Client Err : Type}
    (NewGRPC : GoString → Int → Except Err Client) (timeout : Int) (l : List GoString)
    (m0 : GoMap Client)
    (h : ∃ u ∈ l, ∃ e, NewGRPC (strings.TrimPrefix u (ascii "grpc://")) timeout = Except.error e) :
    registerGRPCClients NewGRPC timeout l m0 = Except.error 1 := by
  induction l generalizing m0 with
  | nil => obtain ⟨u, hu, _⟩ := h; exact absurd hu (List.not_mem_nil u)
  | cons x rest ih =>
    simp only [registerGRPCClients]
    cases hx : NewGRPC (strings.TrimPrefix x (ascii "grpc://")) timeout with
    | error e => rfl
    | ok c =>
      simp only
      apply ih
      obtain ⟨u, hu, e, he⟩ := h
      rcases List.mem_cons.mp hu with h1 | h1
      · subst h1; rw [hx] at he; cases he
      · exact ⟨u, h1, e, he⟩

/-! ## Rounding in `float64` -/

namespace Float64

theorem roundHalfEven_sub_le (y : ℚ) : |(roundHalfEven y : ℚ) - y| ≤ 1 / 2 := by
  have h1 := Int.floor_le y
  have h2 := Int.lt_floor_add_one y
  unfold roundHalfEven
  simp only
  split_ifs with ha hb hc
  · rw [abs_le]; constructor <;> linarith
  · rw [abs_le]; push_cast; constructor <;> linarith
  · rw [abs_le]; constructor <;> linarith
  · rw [abs_le]; push_cast; constructor <;> linarith

theorem roundHalfEven_intCast (k : ℤ) : roundHalfEven (k : ℚ) = k := by
  unfold roundHalfEven
  simp

theorem log_eq_of_bounds {x : ℚ} {e : ℤ} (h1 : (2 : ℚ) ^ e ≤ x) (h2 : x < (2 : ℚ) ^ (e + 1)) :
    Int.log 2 x = e := by
  have hx : 0 < x := lt_of_lt_of_le (by positivity) h1
  have ha : e ≤ Int.log 2 x := by
    rw [← Int.zpow_le_iff_le_log (by norm_num) hx]
    exact_mod_cast h1
  have hb : Int.log 2 x < e + 1 := by
    rw [← Int.lt_zpow_iff_log_lt (by norm_num) hx]
    exact_mod_cast h2
  omega

theorem roundMagnitude_eq_of {x : ℚ} (e n : ℤ) (h1 : (2 : ℚ) ^ e ≤ x)
    (h2 : x < (2 : ℚ) ^ (e + 1)) (hmin : -1022 ≤ e)
    (hn : roundHalfEven (x / 2 ^ (e - 52)) = n) :
    roundMagnitude x = (n : ℚ) * 2 ^ (e - 52) := by
  unfold roundMagnitude ulpExponent
  rw [log_eq_of_bounds h1 h2, max_eq_left hmin, hn]

theorem roundHalfEven_eq_floor {y : ℚ} (f : ℤ) (h1 : (f : ℚ) ≤ y) (h2 : y - f < 1 / 2) :
    roundHalfEven y = f := by
  have hf : ⌊y⌋ = f := by
    rw [Int.floor_eq_iff]; constructor <;> linarith
  unfold roundHalfEven
  simp only [hf, h2, if_true]

theorem roundHalfEven_eq_ceil {y : ℚ} (f : ℤ) (h1 : 1 / 2 < y - f) (h2 : y < f + 1) :
    roundHalfEven y = f + 1 := by
  have hf : ⌊y⌋ = f := by
    rw [Int.floor_eq_iff]; constructor <;> linarith
  unfold roundHalfEven
  simp only [hf]
  rw [if_neg (by linarith), if_pos h1]

theorem roundHalfEven_eq_tie {y : ℚ} (f : ℤ) (h : y = f + 1 / 2) :
    roundHalfEven y = if f % 2 = 0 then f else f + 1 := by
  have hf : ⌊y⌋ = f := by
    rw [Int.floor_eq_iff]; constructor <;> linarith
  unfold roundHalfEven
  simp only [hf]
  rw [if_neg (by linarith), if_neg (by linarith)]

/-- Relative error of rounding in the normal range. -/
theorem roundMagnitude_sub_le {x : ℚ} (hx : (2 : ℚ) ^ (-1022 : ℤ) ≤ x) :
    |roundMagnitude x - x| ≤ x / 2 ^ (53 : ℕ) := by
  have hpos : 0 < x := lt_of_lt_of_le (by positivity) hx
  have hlog : -1022 ≤ Int.log 2 x := by
    rw [← Int.zpow_le_iff_le_log (by norm_num) hpos]
    exact_mod_cast hx
  have hle : (2 : ℚ) ^ Int.log 2 x ≤ x := by
    have := Int.zpow_log_le_self (b := 2) (r := x) (by norm_num) hpos
    exact_mod_cast this
  unfold roundMagnitude ulpExponent
  rw [max_eq_left hlog]
  set e := Int.log 2 x with he
  have hu : (0 : ℚ) < 2 ^ (e - 52) := by positivity
  have hy := roundHalfEven_sub_le (x / 2 ^ (e - 52))
  have hsplit : (2 : ℚ) ^ e = 2 ^ (e - 52) * 2 ^ (52 : ℕ) := by
    rw [← zpow_natCast, ← zpow_add₀ (by norm_num)]
    congr 1; omega
  have key : (roundHalfEven (x / 2 ^ (e - 52)) : ℚ) * 2 ^ (e - 52) - x =
      ((roundHalfEven (x / 2 ^ (e - 52)) : ℚ) - x / 2 ^ (e - 52)) * 2 ^ (e - 52) := by
    field_simp
  rw [key, abs_mul, abs_of_pos hu]
  calc |(roundHalfEven (x / 2 ^ (e - 52)) : ℚ) - x / 2 ^ (e - 52)| * 2 ^ (e - 52)
      ≤ 1 / 2 * 2 ^ (e - 52) := by gcongr
    _ = 2 ^ e / 2 ^ (53 : ℕ) := by rw [hsplit]; ring
    _ ≤ x / 2 ^ (53 : ℕ) := by gcongr

/-- Non-negative integers up to `2^53` are rounded to themselves. -/
theorem roundMagnitude_natCast {n : ℕ} (hn : n ≤ 2 ^ 53) : roundMagnitude (n : ℚ) = n := by
  rcases Nat.eq_zero_or_pos n with rfl | hpos
  · unfold roundMagnitude
    simp [roundHalfEven]
  rcases Nat.lt_or_ge n (2 ^ 53) with hlt | hge
  · have hlog : Int.log 2 (n : ℚ) = Nat.log 2 n := Int.log_natCast 2 n
    have hl : Nat.log 2 n < 53 := Nat.log_lt_of_lt_pow (by omega) hlt
    unfold roundMagnitude ulpExponent
    rw [hlog, max_eq_left (by omega)]
    have hy : (n : ℚ) / 2 ^ ((Nat.log 2 n : ℤ) - 52) = ((n * 2 ^ (52 - Nat.log 2 n) : ℕ) : ℤ) := by
      have : ((Nat.log 2 n : ℤ) - 52) = -((52 - Nat.log 2 n : ℕ) : ℤ) := by omega
      rw [this, zpow_neg, zpow_natCast]
      push_cast
      field_simp
    rw [hy, roundHalfEven_intCast]
    have : ((Nat.log 2 n : ℤ) - 52) = -((52 - Nat.log 2 n : ℕ) : ℤ) := by omega
    rw [this, zpow_neg, zpow_natCast]
    push_cast
    field_simp
  · have hn2 : n = 2 ^ 53 := le_antisymm hn hge
    subst hn2
    have h := roundMagnitude_eq_of (x := ((2 ^ 53 : ℕ) : ℚ)) 53 (2 ^ 52) (by norm_num) (by norm_num)
      (by norm_num) (by
        have : (((2 ^ 53 : ℕ) : ℚ)) / 2 ^ ((53 : ℤ) - 52) = ((2 ^ 52 : ℤ) : ℚ) := by norm_num
        rw [this, roundHalfEven_intCast])
    rw [h]
    norm_num

theorem round_eq_finite {x : ℚ} (neg : Bool) (h : roundMagnitude x < 2 ^ (1024 : ℕ)) :
    round neg x = finite neg (roundMagnitude x) := by
  unfold round
  simp only
  rw [if_neg (not_le.mpr h)]

theorem round_natCast (neg : Bool) {n : ℕ} (hn : n ≤ 2 ^ 53) :
    round neg (n : ℚ) = finite neg n := by
  have h := roundMagnitude_natCast hn
  rw [round_eq_finite neg, h]
  rw [h]
  have : (n : ℚ) ≤ ((2 ^ 53 : ℕ) : ℚ) := by exact_mod_cast hn
  refine lt_of_le_of_lt this ?_
  norm_num

theorem ofInt_eq {n : ℤ} (hn : |n| ≤ 2 ^ 53) :
    ofInt n = finite (decide (n < 0)) |(n : ℚ)| := by
  have hcast : |(n : ℚ)| = (n.natAbs : ℚ) := by
    rw [Nat.cast_natAbs, Int.cast_abs]
  have hle : n.natAbs ≤ 2 ^ 53 := by
    have : (n.natAbs : ℤ) ≤ 2 ^ 53 := by rw [Int.natCast_natAbs]; exact hn
    exact_mod_cast this
  unfold ofInt
  rw [hcast, round_natCast _ hle]

theorem signed_abs (q : ℚ) : signed (decide (q < 0)) |q| = q := by
  unfold signed
  by_cases h : q < 0
  · simp [h, abs_of_neg h]
  · simp [h, abs_of_nonneg (not_lt.mp h)]

theorem signed_mul (a b : Bool) (p q : ℚ) :
    signed a p * signed b q = signed (xor a b) (p * q) := by
  cases a <;> cases b <;> simp [signed]

theorem signed_div (a b : Bool) (p q : ℚ) :
    signed a p / signed b q = signed (xor a b) (p / q) := by
  cases a <;> cases b <;> simp [signed, neg_div, div_neg]

theorem abs_signed (s : Bool) (r : ℚ) : |signed s r| = |r| := by
  cases s <;> simp [signed]

theorem abs_signed_sub (s : Bool) (r t : ℚ) : |signed s r - signed s t| = |r - t| := by
  cases s
  · simp [signed]
  · simp only [signed, if_true]
    rw [show -r - -t = -(r - t) by ring, abs_neg]

theorem roundMagnitude_sub_le_mul {x : ℚ} (hx : (2 : ℚ) ^ (-1022 : ℤ) ≤ x) :
    |roundMagnitude x - x| ≤ x * (1 / 2 ^ (53 : ℕ)) := by
  rw [mul_one_div]
  exact roundMagnitude_sub_le hx

/-- Error propagation through two roundings of relative error `u` each. -/
theorem two_roundings {Q p y r u L T : ℚ} (hu : 0 < u) (hu4 : u ≤ 1 / 4) (hQ : 0 < Q)
    (hL : 0 < L) (hlo : 2 * L ≤ Q * p) (hhi : Q * p ≤ T) (h1 : |y - Q| ≤ Q * u)
    (h3 : L ≤ y * p → |r - y * p| ≤ y * p * u) :
    L ≤ y * p ∧ r < 2 * T ∧ |r - Q * p| ≤ (2 * u + u * u) * (Q * p) := by
  obtain ⟨h1a, h1b⟩ := abs_le.mp h1
  have hE : 0 < Q * p := by linarith
  have hp : 0 < p := (pos_iff_pos_of_mul_pos hE).mp hQ
  have hx2lo : Q * p * (1 - u) ≤ y * p := by nlinarith
  have hx2hi : y * p ≤ Q * p * (1 + u) := by nlinarith
  have hhalf : Q * p * (1 / 2) ≤ Q * p * (1 - u) :=
    mul_le_mul_of_nonneg_left (by linarith) hE.le
  have hx2n : L ≤ y * p := by linarith
  obtain ⟨h3a, h3b⟩ := abs_le.mp (h3 hx2n)
  have hyp : 0 < y * p := lt_of_lt_of_le hL hx2n
  have hb2 : y * p * u ≤ Q * p * (1 + u) * u := mul_le_mul_of_nonneg_right hx2hi hu.le
  have hEu : 0 < Q * p * u := mul_pos hE hu
  have hEuu : 0 < Q * p * u * u := mul_pos hEu hu
  refine ⟨hx2n, ?_, ?_⟩
  · have hsq : Q * p * u * u ≤ Q * p * u * (1 / 4) := mul_le_mul_of_nonneg_left hu4 hEu.le
    have hq4 : Q * p * u ≤ Q * p * (1 / 4) := mul_le_mul_of_nonneg_left hu4 hE.le
    nlinarith
  · rw [abs_le]
    constructor <;> nlinarith

/-- Two roundings in the normal range: the quotient of two integers of at most
53 bits, then its product with `p`. -/
theorem roundMagnitude_quotient_mul {A D : ℕ} {p : ℚ} (hA : 0 < A) (hA2 : A ≤ 2 ^ 53)
    (hD : 0 < D) (hD2 : D ≤ 2 ^ 53)
    (hlo : (2 : ℚ) ^ (-1021 : ℤ) ≤ (A : ℚ) / D * p) (hhi : (A : ℚ) / D * p ≤ 2 ^ (1023 : ℕ)) :
    roundMagnitude ((A : ℚ) / D) < 2 ^ (1024 : ℕ) ∧
    roundMagnitude (roundMagnitude ((A : ℚ) / D) * p) < 2 ^ (1024 : ℕ) ∧
    |roundMagnitude (roundMagnitude ((A : ℚ) / D) * p) - (A : ℚ) / D * p| ≤
      (1 / 2 ^ (52 : ℕ) + 1 / 2 ^ (106 : ℕ)) * ((A : ℚ) / D * p) := by
  have hAq : (1 : ℚ) ≤ A := by exact_mod_cast hA
  have hAq2 : (A : ℚ) ≤ 2 ^ (53 : ℕ) := by exact_mod_cast hA2
  have hDq : (1 : ℚ) ≤ D := by exact_mod_cast hD
  have hDq2 : (D : ℚ) ≤ 2 ^ (53 : ℕ) := by exact_mod_cast hD2
  have hDpos : (0 : ℚ) < D := by linarith
  have hu4 : (1 : ℚ) / 2 ^ (53 : ℕ) ≤ 1 / 4 := by norm_num
  have hupos : (0 : ℚ) < 1 / 2 ^ (53 : ℕ) := by positivity
  have hQlo : (1 : ℚ) / 2 ^ (53 : ℕ) ≤ (A : ℚ) / D := by
    rw [div_le_div_iff₀ (by positivity) hDpos]
    nlinarith
  have hQhi : (A : ℚ) / D ≤ 2 ^ (53 : ℕ) := by
    rw [div_le_iff₀ hDpos]
    nlinarith
  have hQpos : (0 : ℚ) < (A : ℚ) / D := lt_of_lt_of_le hupos hQlo
  have hQn : (2 : ℚ) ^ (-1022 : ℤ) ≤ (A : ℚ) / D := by
    refine le_trans ?_ hQlo
    rw [one_div, ← zpow_natCast, ← zpow_neg]
    exact zpow_le_zpow_right₀ (by norm_num) (by norm_num)
  have h1 := roundMagnitude_sub_le_mul hQn
  have h2 : (2 : ℚ) ^ (-1021 : ℤ) = 2 * 2 ^ (-1022 : ℤ) := by
    rw [show (-1021 : ℤ) = 1 + (-1022) by norm_num, zpow_add₀ (by norm_num)]
    norm_num
  have hpow : (2 : ℚ) ^ (1024 : ℕ) = 2 * 2 ^ (1023 : ℕ) := by rw [pow_succ]; ring
  have hconst : (1 : ℚ) / 2 ^ (52 : ℕ) + 1 / 2 ^ (106 : ℕ) =
      2 * (1 / 2 ^ (53 : ℕ)) + 1 / 2 ^ (53 : ℕ) * (1 / 2 ^ (53 : ℕ)) := by norm_num
  have key := two_roundings (Q := (A : ℚ) / D) (p := p) (y := roundMagnitude ((A : ℚ) / D))
    (r := roundMagnitude (roundMagnitude ((A : ℚ) / D) * p)) (u := 1 / 2 ^ (53 : ℕ))
    (L := 2 ^ (-1022 : ℤ)) (T := 2 ^ (1023 : ℕ)) hupos hu4 hQpos (by positivity)
    (by rw [← h2]; exact hlo) hhi h1
    roundMagnitude_sub_le_mul
  refine ⟨?_, ?_, ?_⟩
  · have hle : roundMagnitude ((A : ℚ) / D) ≤ (A : ℚ) / D * (1 + 1 / 2 ^ (53 : ℕ)) := by
      have := (abs_le.mp h1).2
      linarith
    have h54 : (A : ℚ) / D * (1 + 1 / 2 ^ (53 : ℕ)) ≤ 2 ^ (53 : ℕ) * 2 := by
      apply mul_le_mul hQhi (by linarith) (by positivity) (by positivity)
    have hlt : (2 : ℚ) ^ (53 : ℕ) * 2 < 2 ^ (1024 : ℕ) := by
      rw [← pow_succ]
      exact pow_lt_pow_right₀ (by norm_num) (by norm_num)
    linarith
  · rw [hpow]; exact key.2.1
  · rw [hconst]; exact key.2.2

end Float64

theorem generatorCPUArgs_fst (cfg : LoadConfig) (numCPU : Int) :
    (generatorCPUArgs cfg numCPU).1 =
      (if cfg.loadCPUCores = -1 then numCPU else cfg.loadCPUCores) := by
  unfold generatorCPUArgs adjustPercentage resolveCores
  by_cases hc : cfg.loadCPUCores = -1 <;> by_cases ha : cfg.loadCPUAllocated = 0 <;>
    simp [hc, ha]

theorem generatorCPUArgs_snd_of_zero (cfg : LoadConfig) (numCPU : Int)
    (ha : cfg.loadCPUAllocated = 0) :
    (generatorCPUArgs cfg numCPU).2 = cfg.loadCPUPercentage := by
  unfold generatorCPUArgs adjustPercentage resolveCores
  by_cases hc : cfg.loadCPUCores = -1 <;> simp [hc, ha]

theorem generatorCPUArgs_snd_of_ne_zero (cfg : LoadConfig) (numCPU : Int)
    (ha : cfg.loadCPUAllocated ≠ 0) :
    (generatorCPUArgs cfg numCPU).2 =
      Float64.mul
        (Float64.div (Float64.ofInt cfg.loadCPUAllocated)
          (Float64.mul (Float64.ofInt cfg.loadCPUClockSpeed)
            (Float64.ofInt (generatorCPUArgs cfg numCPU).1)))
        cfg.loadCPUPercentage := by
  rw [generatorCPUArgs_fst]
  unfold generatorCPUArgs adjustPercentage resolveCores
  by_cases hc : cfg.loadCPUCores = -1 <;> simp [hc, ha]

/-- The float64 expression of `init` on integers of at most 53 bits and a
finite percentage, with the result in the normal range. -/
theorem float64_expression_bound (a c k : ℤ) (neg : Bool) (p : ℚ)
    (ha0 : a ≠ 0) (ha : |a| ≤ 2 ^ 53) (hck0 : c * k ≠ 0) (hck : |c * k| ≤ 2 ^ 53)
    (hp : 0 ≤ p)
    (hlo : (2 : ℚ) ^ (-1021 : ℤ) ≤ |(a : ℚ) / ((c : ℚ) * (k : ℚ)) * Float64.signed neg p|)
    (hhi : |(a : ℚ) / ((c : ℚ) * (k : ℚ)) * Float64.signed neg p| ≤ 2 ^ (1023 : ℕ)) :
    ∃ v, (Float64.mul (Float64.div (Float64.ofInt a)
        (Float64.mul (Float64.ofInt c) (Float64.ofInt k))) (Float64.finite neg p)).toRat = some v ∧
      |v - (a : ℚ) / ((c : ℚ) * (k : ℚ)) * Float64.signed neg p| ≤
        (1 / 2 ^ (52 : ℕ) + 1 / 2 ^ (106 : ℕ)) *
          |(a : ℚ) / ((c : ℚ) * (k : ℚ)) * Float64.signed neg p| := by
  have hc0 : c ≠ 0 := left_ne_zero_of_mul hck0
  have hk0 : k ≠ 0 := right_ne_zero_of_mul hck0
  have hmul : |c * k| = |c| * |k| := abs_mul c k
  have hc1 : 1 ≤ |c| := Int.one_le_abs hc0
  have hk1 : 1 ≤ |k| := Int.one_le_abs hk0
  have hc : |c| ≤ 2 ^ 53 := by nlinarith [abs_nonneg c, abs_nonneg k]
  have hk : |k| ≤ 2 ^ 53 := by nlinarith [abs_nonneg c, abs_nonneg k]
  -- the magnitudes as natural numbers
  have hA : (a.natAbs : ℚ) = |(a : ℚ)| := by rw [Nat.cast_natAbs, Int.cast_abs]
  have hD : ((c * k).natAbs : ℚ) = |(c : ℚ)| * |(k : ℚ)| := by
    rw [Nat.cast_natAbs, Int.cast_abs, Int.cast_mul, abs_mul]
  have hApos : 0 < a.natAbs := Int.natAbs_pos.mpr ha0
  have hDpos : 0 < (c * k).natAbs := Int.natAbs_pos.mpr hck0
  have hAle : a.natAbs ≤ 2 ^ 53 := by
    have : (a.natAbs : ℤ) ≤ 2 ^ 53 := by rw [Int.natCast_natAbs]; exact ha
    exact_mod_cast this
  have hDle : (c * k).natAbs ≤ 2 ^ 53 := by
    have : ((c * k).natAbs : ℤ) ≤ 2 ^ 53 := by rw [Int.natCast_natAbs]; exact hck
    exact_mod_cast this
  -- the exact value in sign-magnitude form
  have hE : (a : ℚ) / ((c : ℚ) * (k : ℚ)) * Float64.signed neg p =
      Float64.signed (xor (xor (decide (a < 0)) (xor (decide (c < 0)) (decide (k < 0)))) neg)
        ((a.natAbs : ℚ) / ((c * k).natAbs : ℚ) * p) := by
    have e1 : (a : ℚ) = Float64.signed (decide (a < 0)) |(a : ℚ)| := by
      have := Float64.signed_abs (a : ℚ)
      simpa using this.symm
    have e2 : (c : ℚ) = Float64.signed (decide (c < 0)) |(c : ℚ)| := by
      have := Float64.signed_abs (c : ℚ)
      simpa using this.symm
    have e3 : (k : ℚ) = Float64.signed (decide (k < 0)) |(k : ℚ)| := by
      have := Float64.signed_abs (k : ℚ)
      simpa using this.symm
    rw [hA, hD]
    conv_lhs => rw [e1, e2, e3]
    rw [Float64.signed_mul, Float64.signed_div, Float64.signed_mul]
  have hmag0 : 0 ≤ (a.natAbs : ℚ) / ((c * k).natAbs : ℚ) * p :=
    mul_nonneg (div_nonneg (Nat.cast_nonneg _) (Nat.cast_nonneg _)) hp
  rw [hE, Float64.abs_signed, abs_of_nonneg hmag0] at hlo hhi
  obtain ⟨b1, b2, b3⟩ := Float64.roundMagnitude_quotient_mul hApos hAle hDpos hDle hlo hhi
  -- the evaluation
  have hDq0 : ((c * k).natAbs : ℚ) ≠ 0 := by exact_mod_cast hDpos.ne'
  have hval : Float64.mul (Float64.div (Float64.ofInt a)
      (Float64.mul (Float64.ofInt c) (Float64.ofInt k))) (Float64.finite neg p) =
      Float64.finite
        (xor (xor (decide (a < 0)) (xor (decide (c < 0)) (decide (k < 0)))) neg)
        (Float64.roundMagnitude
          (Float64.roundMagnitude ((a.natAbs : ℚ) / ((c * k).natAbs : ℚ)) * p)) := by
    rw [Float64.ofInt_eq ha, Float64.ofInt_eq hc, Float64.ofInt_eq hk]
    simp only [Float64.mul]
    rw [← hD, Float64.round_natCast _ hDle]
    simp only [Float64.div]
    rw [if_neg hDq0, ← hA, Float64.round_eq_finite _ b1]
    simp only [Float64.mul]
    rw [Float64.round_eq_finite _ b2]
  refine ⟨_, by rw [hval]; rfl, ?_⟩
  rw [hE, Float64.abs_signed, abs_of_nonneg hmag0]
  change |Float64.signed _ _ - Float64.signed _ _| ≤ _
  rw [Float64.abs_signed_sub]
  exact b3

namespace Float64

/-- Evaluation of a rounding in the normal range, from the binade of `x` and the
rounded significand. -/
theorem round_eval {x : ℚ} (neg : Bool) (e n : ℤ) (h1 : (2 : ℚ) ^ e ≤ x)
    (h2 : x < (2 : ℚ) ^ (e + 1)) (hmin : -1022 ≤ e) (hmax : e ≤ 1022)
    (hn : roundHalfEven (x / 2 ^ (e - 52)) = n) :
    round neg x = finite neg ((n : ℚ) * 2 ^ (e - 52)) := by
  have hx : (2 : ℚ) ^ (-1022 : ℤ) ≤ x :=
    le_trans (zpow_le_zpow_right₀ (by norm_num) hmin) h1
  have hxpos : 0 < x := lt_of_lt_of_le (by positivity) hx
  have hb := (abs_le.mp (roundMagnitude_sub_le_mul hx)).2
  have hr := roundMagnitude_eq_of e n h1 h2 hmin hn
  have hu : (1 : ℚ) / 2 ^ (53 : ℕ) ≤ 1 := by
    rw [div_le_one (by positivity)]
    exact one_le_pow₀ (by norm_num)
  have hle : roundMagnitude x ≤ x * 2 := by nlinarith
  have h3 : x * 2 < (2 : ℚ) ^ (e + 1) * 2 := by linarith
  have h4 : (2 : ℚ) ^ (e + 1) * 2 = 2 ^ (e + 2) := by
    rw [show e + 2 = (e + 1) + 1 by ring]
    exact (zpow_add_one₀ (by norm_num) (e + 1)).symm
  have h5 : (2 : ℚ) ^ (e + 2) ≤ 2 ^ (1024 : ℤ) :=
    zpow_le_zpow_right₀ (by norm_num) (by omega)
  have h6 : (2 : ℚ) ^ (1024 : ℤ) = 2 ^ (1024 : ℕ) := by
    rw [← zpow_natCast]; rfl
  rw [round_eq_finite neg (by rw [← h6]; linarith), hr]

theorem ofInt_small {n : ℤ} (h0 : 0 ≤ n) (hn : n ≤ 2 ^ 53) : ofInt n = finite false n := by
  rw [ofInt_eq (by rwa [abs_of_nonneg h0])]
  have h1 : ¬ n < 0 := not_lt.mpr h0
  have h2 : |(n : ℚ)| = n := abs_of_nonneg (by exact_mod_cast h0)
  simp [h1, h2]

end Float64

theorem inexactConfig_value (numCPU : Int) :
    generatorCPUArgs inexactConfig numCPU =
      (1, Float64.finite false (5404319552844596 / 2 ^ (54 : ℕ))) := by
  have h1 : Float64.ofInt 1 = Float64.finite false 1 := by
    have := Float64.ofInt_small (n := 1) (by norm_num) (by norm_num)
    simpa using this
  have h10 : Float64.ofInt 10 = Float64.finite false 10 := by
    have := Float64.ofInt_small (n := 10) (by norm_num) (by norm_num)
    simpa using this
  have hm : Float64.mul (Float64.finite false 10) (Float64.finite false 1) =
      Float64.finite false 10 := by
    simp only [Float64.mul]
    have := Float64.round_natCast false (n := 10) (by norm_num)
    simpa using this
  have hd : Float64.div (Float64.finite false 1) (Float64.finite false 10) =
      Float64.finite false (7205759403792794 / 2 ^ (56 : ℕ)) := by
    simp only [Float64.div]
    rw [if_neg (by norm_num)]
    have := Float64.round_eval (x := (1 : ℚ) / 10) false (-4) 7205759403792794
      (by norm_num) (by norm_num) (by norm_num) (by norm_num)
      (by
        have := Float64.roundHalfEven_eq_ceil (y := (1 : ℚ) / 10 / 2 ^ ((-4 : ℤ) - 52))
          7205759403792793 (by norm_num) (by norm_num)
        simpa using this)
    simp only [Bool.xor_false]
    rw [this]
    norm_num
  have hf : Float64.mul (Float64.finite false (7205759403792794 / 2 ^ (56 : ℕ)))
      (Float64.finite false 3) =
      Float64.finite false (5404319552844596 / 2 ^ (54 : ℕ)) := by
    simp only [Float64.mul]
    have := Float64.round_eval (x := (7205759403792794 : ℚ) / 2 ^ (56 : ℕ) * 3) false (-2)
      5404319552844596 (by norm_num) (by norm_num) (by norm_num) (by norm_num)
      (by
        have := Float64.roundHalfEven_eq_tie
          (y := (7205759403792794 : ℚ) / 2 ^ (56 : ℕ) * 3 / 2 ^ ((-2 : ℤ) - 52))
          5404319552844595 (by norm_num)
        simpa using this)
    simp only [Bool.xor_false] at this ⊢
    rw [this]
    norm_num
  have hfst := generatorCPUArgs_fst inexactConfig numCPU
  have hsnd := generatorCPUArgs_snd_of_ne_zero inexactConfig numCPU (by decide)
  rw [hfst] at hsnd
  simp only [inexactConfig] at hfst hsnd
  norm_num at hfst hsnd
  rw [h1, h10, hm, hd, hf] at hsnd
  exact Prod.ext hfst hsnd

theorem commentExample_value (numCPU : Int) :
    generatorCPUArgs commentExample numCPU =
      (10, Float64.finite false (3602879701896397 / 2 ^ (55 : ℕ))) := by
  have h100 : Float64.ofInt 100 = Float64.finite false 100 := by
    have := Float64.ofInt_small (n := 100) (by norm_num) (by norm_num)
    simpa using this
  have h1000 : Float64.ofInt 1000 = Float64.finite false 1000 := by
    have := Float64.ofInt_small (n := 1000) (by norm_num) (by norm_num)
    simpa using this
  have h10 : Float64.ofInt 10 = Float64.finite false 10 := by
    have := Float64.ofInt_small (n := 10) (by norm_num) (by norm_num)
    simpa using this
  have hm : Float64.mul (Float64.finite false 1000) (Float64.finite false 10) =
      Float64.finite false 10000 := by
    simp only [Float64.mul]
    have := Float64.round_natCast false (n := 10000) (by norm_num)
    simp only [Bool.xor_false]
    norm_num at this ⊢
    exact this
  have hd : Float64.div (Float64.finite false 100) (Float64.finite false 10000) =
      Float64.finite false (5764607523034235 / 2 ^ (59 : ℕ)) := by
    simp only [Float64.div]
    rw [if_neg (by norm_num)]
    have := Float64.round_eval (x := (100 : ℚ) / 10000) false (-7) 5764607523034235
      (by norm_num) (by norm_num) (by norm_num) (by norm_num)
      (by
        have := Float64.roundHalfEven_eq_ceil (y := (100 : ℚ) / 10000 / 2 ^ ((-7 : ℤ) - 52))
          5764607523034234 (by norm_num) (by norm_num)
        simpa using this)
    simp only [Bool.xor_false]
    rw [this]
    norm_num
  have hf : Float64.mul (Float64.finite false (5764607523034235 / 2 ^ (59 : ℕ)))
      (Float64.finite false 10) =
      Float64.finite false (3602879701896397 / 2 ^ (55 : ℕ)) := by
    simp only [Float64.mul]
    have := Float64.round_eval (x := (5764607523034235 : ℚ) / 2 ^ (59 : ℕ) * 10) false (-4)
      7205759403792794 (by norm_num) (by norm_num) (by norm_num) (by norm_num)
      (by
        have := Float64.roundHalfEven_eq_ceil
          (y := (5764607523034235 : ℚ) / 2 ^ (59 : ℕ) * 10 / 2 ^ ((-4 : ℤ) - 52))
          7205759403792793 (by norm_num) (by norm_num)
        simpa using this)
    simp only [Bool.xor_false] at this ⊢
    rw [this]
    norm_num
  have hfst := generatorCPUArgs_fst commentExample numCPU
  have hsnd := generatorCPUArgs_snd_of_ne_zero commentExample numCPU (by decide)
  rw [hfst] at hsnd
  simp only [commentExample] at hfst hsnd
  norm_num at hfst hsnd
  rw [h100, h1000, h10, hm, hd, hf] at hsnd
  exact Prod.ext hfst hsnd

/-! ## `tidyURIs` -/

/-- The empty setting yields no upstream. -/
theorem tidyURIs_empty : tidyURIs (ascii "") = [] := by decide

/-- Spaces around segments and empty segments disappear, inner spaces stay. -/
theorem tidyURIs_messy :
    tidyURIs (ascii " a , ,b,,  c d ,") = [ascii "a", ascii "b", ascii "c d"] := by decide

/-- Repeated URIs are kept, in order. -/
theorem tidyURIs_repeated :
    tidyURIs (ascii "b,a,b") = [ascii "b", ascii "a", ascii "b"] := by decide

/-- C1: for every input string `s`, `tidyURIs s` is the list obtained by
splitting `s` on `','`, trimming the leading and trailing space bytes of every
segment and removing the segments that are then empty; the remaining segments
keep their left-to-right order, repetitions included. -/
theorem tidyURIs_eq_tidyURIsSpec (s : GoString) : tidyURIs s = tidyURIsSpec s := by
  unfold tidyURIs tidyURIsSpec
  simp only [strings.Split_eq_splitOn, Trim_space_eq_trimSpaces]
  rw [foldl_append_filter trimSpaces]
  simp

/-- C6: every element of `tidyURIs s` is sanitised: it is non-empty, contains no
`','` byte, and neither begins nor ends with a space byte. -/
theorem tidyURIs_sanitised (s u : GoString) (h : u ∈ tidyURIs s) :
    u ≠ [] ∧ comma ∉ u ∧ u.head? ≠ some space ∧ u.getLast? ≠ some space := by
  obtain ⟨seg, hseg, rfl, hne⟩ := mem_tidyURIs h
  refine ⟨hne, ?_, trimSpaces_head seg, trimSpaces_getLast seg⟩
  intro hc
  have := not_mem_of_mem_splitOnP (· == comma) s seg hseg comma (trimSpaces_subset seg hc)
  simp at this

/-- C6 at `"a, b"`: the element `"b"` of the result is sanitised. -/
theorem tidyURIs_sanitised_witness :
    ascii "b" ∈ tidyURIs (ascii "a, b") ∧
      (ascii "b" ≠ [] ∧ comma ∉ ascii "b" ∧ (ascii "b").head? ≠ some space ∧
        (ascii "b").getLast? ≠ some space) :=
  ⟨by decide, tidyURIs_sanitised (ascii "a, b") (ascii "b") (by decide)⟩

/-! ## CPU percentage -/

/-- C2, as stated, fails: at 1 MHz allocated, 10 MHz per core, 1 core and 3
percent, where `clockSpeed * cores ≠ 0`, the percentage handed to the generator
is the `float64` 5404319552844596 / 2^54 (0.30000000000000004), not the exact
rational `1 / (10 * 1) * 3`. -/
theorem generatorCPUArgs_percentage_inexact :
    (inexactConfig.loadCPUClockSpeed : ℚ) * ((generatorCPUArgs inexactConfig 1).1 : ℚ) ≠ 0 ∧
      (generatorCPUArgs inexactConfig 1).2.toRat = some (5404319552844596 / 2 ^ (54 : ℕ)) ∧
      (generatorCPUArgs inexactConfig 1).2.toRat ≠
        some ((inexactConfig.loadCPUAllocated : ℚ) /
          ((inexactConfig.loadCPUClockSpeed : ℚ) * ((generatorCPUArgs inexactConfig 1).1 : ℚ)) * 3) := by
  rw [inexactConfig_value 1]
  simp only [inexactConfig, Float64.toRat, Float64.signed]
  norm_num

/-- C2, amended. The generator is handed the resolved core count
(`runtime.NumCPU()` when `LOAD_CPU_CORES` is -1, the configured count otherwise)
and a percentage that is: when `LOAD_CPU_ALLOCATED` is zero, the configured
percentage unchanged; when it is non-zero, the `float64` value of
`allocated / (clockSpeed * cores) * percentage`, each operation rounded to
nearest. For `|allocated| ≤ 2^53`, `0 < |clockSpeed * cores| ≤ 2^53` and a finite
percentage such that the exact value `E` of that expression has
`2^-1021 ≤ |E| ≤ 2^1023`, this value is finite and within
`(2^-52 + 2^-106) * |E|` of `E`. -/
theorem generatorCPUArgs_percentage_float64 (cfg : LoadConfig) (numCPU : Int) :
    (generatorCPUArgs cfg numCPU).1 =
      (if cfg.loadCPUCores = -1 then numCPU else cfg.loadCPUCores) ∧
    (cfg.loadCPUAllocated = 0 → (generatorCPUArgs cfg numCPU).2 = cfg.loadCPUPercentage) ∧
    (cfg.loadCPUAllocated ≠ 0 →
      (generatorCPUArgs cfg numCPU).2 =
        Float64.mul
          (Float64.div (Float64.ofInt cfg.loadCPUAllocated)
            (Float64.mul (Float64.ofInt cfg.loadCPUClockSpeed)
              (Float64.ofInt (generatorCPUArgs cfg numCPU).1)))
          cfg.loadCPUPercentage) ∧
    (∀ (neg : Bool) (p : ℚ),
      cfg.loadCPUAllocated ≠ 0 →
      cfg.loadCPUPercentage = Float64.finite neg p → 0 ≤ p →
      |cfg.loadCPUAllocated| ≤ 2 ^ 53 →
      cfg.loadCPUClockSpeed * (generatorCPUArgs cfg numCPU).1 ≠ 0 →
      |cfg.loadCPUClockSpeed * (generatorCPUArgs cfg numCPU).1| ≤ 2 ^ 53 →
      (2 : ℚ) ^ (-1021 : ℤ) ≤
        |(cfg.loadCPUAllocated : ℚ) /
          ((cfg.loadCPUClockSpeed : ℚ) * ((generatorCPUArgs cfg numCPU).1 : ℚ)) *
          Float64.signed neg p| →
      |(cfg.loadCPUAllocated : ℚ) /
          ((cfg.loadCPUClockSpeed : ℚ) * ((generatorCPUArgs cfg numCPU).1 : ℚ)) *
          Float64.signed neg p| ≤ 2 ^ (1023 : ℕ) →
      ∃ v, (generatorCPUArgs cfg numCPU).2.toRat = some v ∧
        |v - (cfg.loadCPUAllocated : ℚ) /
            ((cfg.loadCPUClockSpeed : ℚ) * ((generatorCPUArgs cfg numCPU).1 : ℚ)) *
            Float64.signed neg p| ≤
          (1 / 2 ^ (52 : ℕ) + 1 / 2 ^ (106 : ℕ)) *
            |(cfg.loadCPUAllocated : ℚ) /
              ((cfg.loadCPUClockSpeed : ℚ) * ((generatorCPUArgs cfg numCPU).1 : ℚ)) *
              Float64.signed neg p|) := by
  refine ⟨generatorCPUArgs_fst cfg numCPU, generatorCPUArgs_snd_of_zero cfg numCPU,
    generatorCPUArgs_snd_of_ne_zero cfg numCPU, ?_⟩
  intro neg p ha0 hpct hp ha hck0 hck hlo hhi
  rw [generatorCPUArgs_snd_of_ne_zero cfg numCPU ha0, hpct]
  exact float64_expression_bound _ _ _ neg p ha0 ha hck0 hck hp hlo hhi

/-- C2, amended, at 500 MHz allocated, 1000 MHz per core, all 4 cores, 50
percent: the generator is handed 4 cores and a finite percentage within
`(2^-52 + 2^-106) * (25 / 4)` of `500 / (1000 * 4) * 50 = 25 / 4`. -/
theorem generatorCPUArgs_percentage_float64_witness :
    (generatorCPUArgs allocatedConfig 4).1 = 4 ∧
      ∃ v, (generatorCPUArgs allocatedConfig 4).2.toRat = some v ∧
        |v - 25 / 4| ≤ (1 / 2 ^ (52 : ℕ) + 1 / 2 ^ (106 : ℕ)) * (25 / 4) := by
  have key := generatorCPUArgs_percentage_float64 allocatedConfig 4
  have hcores : (generatorCPUArgs allocatedConfig 4).1 = 4 := by
    rw [key.1]; decide
  have hE : (allocatedConfig.loadCPUAllocated : ℚ) /
      ((allocatedConfig.loadCPUClockSpeed : ℚ) * ((generatorCPUArgs allocatedConfig 4).1 : ℚ)) *
      Float64.signed false 50 = 25 / 4 := by
    rw [hcores]
    simp only [allocatedConfig, Float64.signed]
    norm_num
  have habs : |(25 : ℚ) / 4| = 25 / 4 := abs_of_pos (by norm_num)
  have hlo : (2 : ℚ) ^ (-1021 : ℤ) ≤ 25 / 4 :=
    le_trans (zpow_le_one_of_nonpos₀ (by norm_num) (by norm_num)) (by norm_num)
  have hhi : (25 : ℚ) / 4 ≤ 2 ^ (1023 : ℕ) :=
    le_trans (by norm_num : (25 : ℚ) / 4 ≤ 2 ^ (3 : ℕ))
      (pow_le_pow_right₀ (by norm_num) (by norm_num))
  have h := key.2.2.2 false 50 (by decide) rfl (by norm_num)
    (by simp only [allocatedConfig]; norm_num)
    (by rw [hcores]; simp only [allocatedConfig]; norm_num)
    (by rw [hcores]; simp only [allocatedConfig]; norm_num)
    (by rw [hE, habs]; exact hlo)
    (by rw [hE, habs]; exact hhi)
  rw [hE, habs] at h
  exact ⟨hcores, h⟩

/-- C5: for the worked example of the comment (percentage 10, allocated 100 MHz,
clock 1000 MHz, 10 cores) `init` hands the generator 10 cores and the `float64`
3602879701896397 / 2^55, the one nearest to 0.1; the comment announces 1. -/
theorem commentExample_percentage (numCPU : Int) :
    generatorCPUArgs commentExample numCPU =
        (10, Float64.finite false (3602879701896397 / 2 ^ (55 : ℕ))) ∧
      (generatorCPUArgs commentExample numCPU).2.toRat ≠ some 1 := by
  have hval := commentExample_value numCPU
  refine ⟨hval, ?_⟩
  rw [hval]
  simp only [Float64.toRat, Float64.signed]
  norm_num

/-! ## Error injector -/

/-- C4: whatever `ERROR_RATE`, `ERROR_CODE`, `ERROR_TYPE` and `ERROR_DELAY` are,
the injector built by `init` has secondary rate 0, and under the rule "fails iff
sample < rate" the secondary fault does not fire for any draws in `[0, 1)`. -/
theorem secondary_fault_never_fires (errorRate : ℚ) (errorCode : Int) (errorType : GoString)
    (errorDelay : Int) (sample sample2 : ℚ)
    (hs : 0 ≤ sample ∧ sample < 1) (hs2 : 0 ≤ sample2 ∧ sample2 < 1) :
    (initErrorInjector errorRate errorCode errorType errorDelay).secondaryRate = 0 ∧
      ¬ (sample2 < (initErrorInjector errorRate errorCode errorType errorDelay).secondaryRate) ∧
      (initErrorInjector errorRate errorCode errorType errorDelay).check sample sample2 ≠
        FaultDecision.secondary := by
  have _ := hs
  refine ⟨rfl, ?_, ?_⟩
  · simp only [initErrorInjector, not_lt]
    exact hs2.1
  · unfold Injector.check
    simp only [initErrorInjector]
    split
    · simp
    · rw [if_neg (not_lt.mpr hs2.1)]
      simp

/-- C4 at `ERROR_RATE = 1/2`, code 500, type `"http_error"`, no delay, with the
draws `3/4` (primary check, which passes) and `0` (secondary check). -/
theorem secondary_fault_never_fires_witness :
    ((0 : ℚ) ≤ 3 / 4 ∧ (3 / 4 : ℚ) < 1) ∧ ((0 : ℚ) ≤ 0 ∧ (0 : ℚ) < 1) ∧
      (initErrorInjector (1 / 2) 500 (ascii "http_error") 0).check (3 / 4) 0 ≠
        FaultDecision.secondary :=
  ⟨by norm_num, by norm_num,
    (secondary_fault_never_fires (1 / 2) 500 (ascii "http_error") 0 (3 / 4) 0
      (by norm_num) (by norm_num)).2.2⟩

/-! ## gRPC clients -/

/-- C3, as stated, fails: with the single plain upstream `"http://a"` and a
client constructor that succeeds, `init` registers a client under the key
`"http://a"`, a tidied URI that does not start with `"grpc://"`. -/
theorem grpcClient_registered_for_plain_uri :
    ∃ m, initGRPCClients dialTarget 30000000000 (ascii "http://a") = Except.ok m ∧
      ascii "http://a" ∈ tidyURIs (ascii "http://a") ∧
      strings.HasPrefix (ascii "http://a") (ascii "grpc://") = false ∧
      m (ascii "http://a") = some (ascii "http://a") :=
  ⟨_, rfl, by decide, by decide, by decide⟩

/-- C3, amended. `init` creates a gRPC client for every tidied upstream URI,
with or without the prefix `"grpc://"`: for the rest of the URI when it is
`"grpc://"` followed by a rest, for the URI itself when it does not start with
`"grpc://"`. If every one of these creations succeeds, the loop completes and
the `grpcClients` map has an entry for exactly the tidied upstream URIs, each
keyed by the whole URI and holding the client created for it. If one of them
fails, the process exits with status 1. -/
theorem grpcClients_registered_for_every_uri {Client Err : Type}
    (NewGRPC : GoString → Int → Except Err Client) (timeout : Int) (upstreamURIs : GoString) :
    ((∀ u ∈ tidyURIs upstreamURIs,
        (∀ rest, u = ascii "grpc://" ++ rest → ∃ c, NewGRPC rest timeout = Except.ok c) ∧
        (¬ ascii "grpc://" <+: u → ∃ c, NewGRPC u timeout = Except.ok c)) →
      ∃ m, initGRPCClients NewGRPC timeout upstreamURIs = Except.ok m ∧
        ∀ u, ((m u).isSome = true ↔ u ∈ tidyURIs upstreamURIs) ∧
          ∀ c, m u = some c →
            (∀ rest, u = ascii "grpc://" ++ rest → NewGRPC rest timeout = Except.ok c) ∧
            (¬ ascii "grpc://" <+: u → NewGRPC u timeout = Except.ok c)) ∧
    ((∃ u ∈ tidyURIs upstreamURIs,
        (∃ rest e, u = ascii "grpc://" ++ rest ∧ NewGRPC rest timeout = Except.error e) ∨
        (¬ ascii "grpc://" <+: u ∧ ∃ e, NewGRPC u timeout = Except.error e)) →
      initGRPCClients NewGRPC timeout upstreamURIs = Except.error 1) := by
  constructor
  · intro h
    have h2 : ∀ u ∈ tidyURIs upstreamURIs,
        ∃ c, NewGRPC (strings.TrimPrefix u (ascii "grpc://")) timeout = Except.ok c := by
      intro u hu
      by_cases hp : ascii "grpc://" <+: u
      · obtain ⟨rest, rfl⟩ := hp
        rw [strings.TrimPrefix_append]
        exact (h _ hu).1 rest rfl
      · rw [strings.TrimPrefix_of_not_prefix hp]
        exact (h u hu).2 hp
    obtain ⟨m, hm, hprop⟩ :=
      registerGRPCClients_ok NewGRPC timeout (tidyURIs upstreamURIs) GoMap.empty h2
    refine ⟨m, hm, fun u => ?_⟩
    by_cases hu : u ∈ tidyURIs upstreamURIs
    · obtain ⟨c, hc, hnew⟩ := (hprop u).1 hu
      refine ⟨⟨fun _ => hu, fun _ => by simp [hc]⟩, ?_⟩
      intro c2 hc2
      rw [hc] at hc2
      cases hc2
      constructor
      · rintro rest rfl
        rwa [strings.TrimPrefix_append] at hnew
      · intro hp
        rwa [strings.TrimPrefix_of_not_prefix hp] at hnew
    · have hnone : m u = none := by rw [(hprop u).2 hu]; rfl
      refine ⟨⟨fun hs => ?_, fun hin => absurd hin hu⟩, ?_⟩
      · rw [hnone] at hs; simp at hs
      · intro c2 hc2
        rw [hnone] at hc2
        cases hc2
  · rintro ⟨u, hu, hfail⟩
    apply registerGRPCClients_exit
    refine ⟨u, hu, ?_⟩
    rcases hfail with ⟨rest, e, rfl, he⟩ | ⟨hp, e, he⟩
    · exact ⟨e, by rw [strings.TrimPrefix_append]; exact he⟩
    · exact ⟨e, by rw [strings.TrimPrefix_of_not_prefix hp]; exact he⟩

/-- C3, amended, at `UPSTREAM_URIS = "grpc://a, http://b"` with a constructor
that succeeds: the map holds the client dialled at `"a"` under `"grpc://a"` and
the client dialled at `"http://b"` under `"http://b"`, and nothing under `"a"`.
At `"http://a,grpc://"` with a constructor that rejects the empty target, the
process exits with status 1. -/
theorem grpcClients_registered_for_every_uri_witness :
    (∃ m, initGRPCClients dialTarget 30000000000 (ascii "grpc://a, http://b") = Except.ok m ∧
      m (ascii "grpc://a") = some (ascii "a") ∧
      m (ascii "http://b") = some (ascii "http://b") ∧
      m (ascii "a") = none) ∧
    initGRPCClients dialNonEmpty 30000000000 (ascii "http://a,grpc://") = Except.error 1 := by
  have key := grpcClients_registered_for_every_uri dialTarget 30000000000
    (ascii "grpc://a, http://b")
  have key2 := grpcClients_registered_for_every_uri dialNonEmpty 30000000000
    (ascii "http://a,grpc://")
  constructor
  · obtain ⟨m, hm, hprop⟩ := key.1 (fun u _ => ⟨fun rest _ => ⟨rest, rfl⟩, fun _ => ⟨u, rfl⟩⟩)
    refine ⟨m, hm, ?_, ?_, ?_⟩
    · have hs := (hprop (ascii "grpc://a")).1.mpr (by decide)
      obtain ⟨c, hc⟩ := Option.isSome_iff_exists.mp hs
      have h1 := ((hprop (ascii "grpc://a")).2 c hc).1 (ascii "a") (by decide)
      simp only [dialTarget, Except.ok.injEq] at h1
      rw [hc, h1]
    · have hs := (hprop (ascii "http://b")).1.mpr (by decide)
      obtain ⟨c, hc⟩ := Option.isSome_iff_exists.mp hs
      have h1 := ((hprop (ascii "http://b")).2 c hc).2 (by decide)
      simp only [dialTarget, Except.ok.injEq] at h1
      rw [hc, h1]
    · have hs := (hprop (ascii "a")).1
      cases hm2 : m (ascii "a") with
      | none => rfl
      | some c =>
        rw [hm2] at hs
        exact absurd (hs.mp rfl) (by decide)
  · exact key2.2 ⟨ascii "grpc://", by decide,
      Or.inl ⟨[], "empty target", by decide, rfl⟩⟩

/-! ## Lambda adapter -/

/-- C7: once the request was marshalled and wrapped and the handler recorded a
status code `c` and a body: if the body decodes as a response, `LambdaHandler`
returns the decoded response with an error that is `nil` iff `c = 200`, and for
`c ≠ 200` the error reads "expected status 200, got status c"; if the body does
not decode, it returns the zero response and the decode error. -/
theorem LambdaHandler_result {Request Response HTTPRequest : Type}
    (env : Collaborators Request Response HTTPRequest) (req : Request)
    (d : GoString) (r : HTTPRequest)
    (hd : env.jsonMarshal req = Except.ok d) (hr : env.newRequest d = Except.ok r) :
    (∀ resp, env.jsonUnmarshal (env.serveHTTP r).Body = Except.ok resp →
      (LambdaHandler env req).1 = resp ∧
      ((LambdaHandler env req).2 = none ↔ (env.serveHTTP r).Code = 200) ∧
      ((env.serveHTTP r).Code ≠ 200 →
        (LambdaHandler env req).2 =
          some ("expected status 200, got status " ++ toString (env.serveHTTP r).Code))) ∧
    (∀ err, env.jsonUnmarshal (env.serveHTTP r).Body = Except.error err →
      LambdaHandler env req = (env.zeroResponse, some err)) := by
  constructor
  · intro resp hresp
    have hL : LambdaHandler env req =
        (resp, if (env.serveHTTP r).Code ≠ 200 then
          some ("expected status 200, got status " ++ toString (env.serveHTTP r).Code)
        else none) := by
      simp only [LambdaHandler, hd, hr, hresp, StatusOK, statusError]
    rw [hL]
    refine ⟨rfl, ?_, ?_⟩
    · by_cases hc : (env.serveHTTP r).Code = 200 <;> simp [hc]
    · intro hc
      simp [hc]
  · intro err herr
    simp only [LambdaHandler, hd, hr, herr]

/-- C7 at a recorded status 500 with a body that decodes: the decoded response
comes back together with the error "expected status 200, got status 500". -/
theorem LambdaHandler_result_witness :
    (echoCollaborators 500 (ascii "x")).jsonMarshal () = Except.ok (ascii "null") ∧
    (echoCollaborators 500 (ascii "x")).newRequest (ascii "null") = Except.ok (ascii "null") ∧
    LambdaHandler (echoCollaborators 500 (ascii "x")) () =
      (ascii "x", some "expected status 200, got status 500") := by
  have key := (LambdaHandler_result (echoCollaborators 500 (ascii "x")) () (ascii "null")
    (ascii "null") rfl rfl).1 (ascii "x") rfl
  refine ⟨rfl, rfl, ?_⟩
  exact Prod.ext key.1 (key.2.2 (by decide))

